import Mathlib

/-!
Verification development for the FVM FFI boundary layer
(`rust/src/fvm/machine.rs` of the filecoin-ffi repository).

The Rust source is shallowly embedded: machine integers become `Nat`
(with explicit bounds or `% 2 ^ w` where a cast matters), fallible code
becomes `Except`, the trace iterator becomes an explicit event list that
is threaded through the reconstruction, and raw FFI pointers become
`Option` values (with `none` standing for the null pointer).
-/

set_option maxHeartbeats 1000000

/-- Exit codes from `fvm_shared::error::ExitCode`.  Only the wrapped
numeric value is semantically relevant here; the code under verification
relies on `OK` being the unique success value and on the three `SYS_`
constants it names being pairwise distinct. -/
structure ExitCode where
  value : Nat
deriving DecidableEq

def ExitCode.OK : ExitCode := ⟨0⟩

def ExitCode.SYS_INVALID_RECEIVER : ExitCode := ⟨4⟩

def ExitCode.SYS_INSUFFICIENT_FUNDS : ExitCode := ⟨5⟩

def ExitCode.SYS_ASSERTION_FAILED : ExitCode := ⟨9⟩

/-- `ExitCode::is_success`: an exit code denotes success iff its value is 0. -/
def ExitCode.is_success (c : ExitCode) : Bool := c.value == 0

/-- The closed set of dispatch-failure reasons,
`fvm_shared::error::ErrorNumber`.  The `match` in `build_lotus_trace`
(machine.rs:473-486) is exhaustive over exactly these constructors. -/
inductive ErrorNumber where
  | IllegalArgument
  | IllegalOperation
  | LimitExceeded
  | AssertionFailed
  | InsufficientFunds
  | NotFound
  | InvalidHandle
  | IllegalCid
  | IllegalCodec
  | Serialization
  | Forbidden
deriving DecidableEq, Fintype

/-- `fvm::kernel::SyscallError`: a message together with an `ErrorNumber`
(the Rust field `.1`, called `errno` here). -/
structure SyscallError where
  msg : String
  errno : ErrorNumber

/-- Raw parameter/return bytes (`fvm_ipld_encoding::RawBytes`), as a list
of byte values. -/
abbrev RawBytes : Type := List Nat

/-- Addresses (`fvm_shared::address::Address`): either an ID address, the
only kind this file constructs (`Address::new_id`), or any other address
class kept as its opaque payload bytes. -/
inductive Address where
  | new_id (id : Nat)
  | raw (bytes : List Nat)
deriving DecidableEq

/-- Token amounts (`fvm_shared::econ::TokenAmount`): a non-negative
big integer. -/
abbrev TokenAmount : Type := Nat

/-- `fvm_shared::message::Message`, with the fields in declaration order
(this order is what the tuple serialization uses). -/
structure Message where
  version : Nat
  from_ : Address
  to_ : Address
  sequence : Nat
  value : TokenAmount
  method_num : Nat
  params : RawBytes
  gas_limit : Nat
  gas_fee_cap : TokenAmount
  gas_premium : TokenAmount
deriving DecidableEq

/-- `fvm_shared::receipt::Receipt`. -/
structure Receipt where
  exit_code : ExitCode
  return_data : RawBytes
  gas_used : Nat
deriving DecidableEq

/-- `fvm::trace::SendParams` (the payload of a `Call` event). -/
structure SendParams where
  from_ : Nat
  to_ : Address
  method : Nat
  params : RawBytes
  value : TokenAmount

/-- `fvm::executor::InvocationResult`. -/
inductive InvocationResult where
  | Return (return_data : RawBytes)
  | Failure (exit_code : ExitCode)

/-- `fvm::trace::ExecutionEvent`: the flat event stream produced by the
engine.  A `Return` carries `Result<InvocationResult, SyscallError>`. -/
inductive ExecutionEvent where
  | Call (send_params : SendParams)
  | Return (res : Except SyscallError InvocationResult)

/-- The reconstructed call-tree node (`struct LotusTrace`,
machine.rs:411-417), with fields in declaration order: message, receipt,
error text, children. -/
structure LotusTrace where
  msg : Message
  msg_receipt : Receipt
  error : String
  subcalls : List LotusTrace

/-- The exit code assigned to a dispatch failure: the `match` on
`syscall_err.1` at machine.rs:473-486 (the spec's ExitMapper). -/
def syscall_exit_code : ErrorNumber → ExitCode
  | .InsufficientFunds => ExitCode.SYS_INSUFFICIENT_FUNDS
  | .NotFound => ExitCode.SYS_INVALID_RECEIVER
  | .IllegalArgument => ExitCode.SYS_ASSERTION_FAILED
  | .IllegalOperation => ExitCode.SYS_ASSERTION_FAILED
  | .LimitExceeded => ExitCode.SYS_ASSERTION_FAILED
  | .AssertionFailed => ExitCode.SYS_ASSERTION_FAILED
  | .InvalidHandle => ExitCode.SYS_ASSERTION_FAILED
  | .IllegalCid => ExitCode.SYS_ASSERTION_FAILED
  | .IllegalCodec => ExitCode.SYS_ASSERTION_FAILED
  | .Serialization => ExitCode.SYS_ASSERTION_FAILED
  | .Forbidden => ExitCode.SYS_ASSERTION_FAILED

/-- How a `Return` event's outcome is turned into the closing receipt of
a frame: the `match res` at machine.rs:453-494.  The `Failure`-with-
success-code branch is the `return Err(anyhow!(...))` at line 461. -/
def receipt_of_return (res : Except SyscallError InvocationResult) :
    Except String Receipt :=
  match res with
  | .ok (.Return return_data) =>
      .ok { exit_code := ExitCode.OK, return_data := return_data, gas_used := 0 }
  | .ok (.Failure exit_code) =>
      if exit_code.is_success then
        .error "actor failed with status OK"
      else
        .ok { exit_code := exit_code, return_data := [], gas_used := 0 }
  | .error syscall_err =>
      .ok { exit_code := syscall_exit_code syscall_err.errno,
            return_data := [], gas_used := 0 }

/-- The freshly opened frame built from a `Call` event: the `LotusTrace`
literal at machine.rs:423-448 (zeroed receipt, empty error, no
subcalls). -/
def start_trace (send_params : SendParams) : LotusTrace :=
  { msg := { version := 0
             from_ := Address.new_id send_params.from_
             to_ := send_params.to_
             sequence := 0
             value := send_params.value
             method_num := send_params.method
             params := send_params.params
             gas_limit := 0
             gas_fee_cap := 0
             gas_premium := 0 }
    msg_receipt := { exit_code := ExitCode.OK, return_data := [], gas_used := 0 }
    error := ""
    subcalls := [] }

mutual

/-- `build_lotus_trace` (machine.rs:419-508).  The Rust iterator is
embedded as an explicit event list; the returned list is the state of
the iterator after the call, certified not to have grown. -/
def build_lotus_trace (new_call : ExecutionEvent) (events : List ExecutionEvent) :
    Except String (LotusTrace × { l : List ExecutionEvent // l.length ≤ events.length }) :=
  match new_call with
  | .Call send_params => lotus_loop (start_trace send_params) events
  | _ => .error "expected ExecutionEvent of type Call"
termination_by (events.length, 1)

/-- The `while let Some(trace) = trace_iter.next()` loop of
`build_lotus_trace` (machine.rs:450-507), including the trailing
`Err(anyhow!(...))` when the events run out. -/
def lotus_loop (new_trace : LotusTrace) (events : List ExecutionEvent) :
    Except String (LotusTrace × { l : List ExecutionEvent // l.length ≤ events.length }) :=
  match events with
  | [] => .error "should have returned on an ExecutionEvent:Return"
  | .Return res :: rest =>
      match receipt_of_return res with
      | .error e => .error e
      | .ok receipt =>
          .ok ({ new_trace with msg_receipt := receipt },
               ⟨rest, by simp [List.length_cons]⟩)
  | ev :: rest =>
      match build_lotus_trace ev rest with
      | .error e => .error e
      | .ok (child, ⟨rest', h'⟩) =>
          match lotus_loop { new_trace with subcalls := new_trace.subcalls ++ [child] } rest' with
          | .error e => .error e
          | .ok (t', ⟨rest'', h''⟩) =>
              .ok (t', ⟨rest'', by simp only [List.length_cons]; omega⟩)
termination_by (events.length, 0)
decreasing_by
  · exact Prod.Lex.left _ _ (by simp [List.length_cons])
  · exact Prod.Lex.left _ _ (by simp only [List.length_cons]; omega)

end

/-- `build_lotus_trace` with the iterator-state certificate erased:
returns the reconstructed frame together with the events left over. -/
def build_lotus_trace' (new_call : ExecutionEvent) (events : List ExecutionEvent) :
    Except String (LotusTrace × List ExecutionEvent) :=
  match build_lotus_trace new_call events with
  | .error e => .error e
  | .ok (t, rest) => .ok (t, rest.val)

/-- The loop of `build_lotus_trace`, certificate erased. -/
def lotus_loop' (new_trace : LotusTrace) (events : List ExecutionEvent) :
    Except String (LotusTrace × List ExecutionEvent) :=
  match lotus_loop new_trace events with
  | .error e => .error e
  | .ok (t, rest) => .ok (t, rest.val)

theorem build_lotus_trace'_call (send_params : SendParams) (events : List ExecutionEvent) :
    build_lotus_trace' (.Call send_params) events =
      lotus_loop' (start_trace send_params) events := by
  simp [build_lotus_trace', lotus_loop', build_lotus_trace]

theorem build_lotus_trace'_return (res : Except SyscallError InvocationResult)
    (events : List ExecutionEvent) :
    build_lotus_trace' (.Return res) events =
      .error "expected ExecutionEvent of type Call" := by
  simp [build_lotus_trace', build_lotus_trace]

theorem lotus_loop'_nil (new_trace : LotusTrace) :
    lotus_loop' new_trace [] = .error "should have returned on an ExecutionEvent:Return" := by
  simp [lotus_loop', lotus_loop]

theorem lotus_loop'_return (new_trace : LotusTrace)
    (res : Except SyscallError InvocationResult) (rest : List ExecutionEvent) :
    lotus_loop' new_trace (.Return res :: rest) =
      match receipt_of_return res with
      | .error e => .error e
      | .ok receipt => .ok ({ new_trace with msg_receipt := receipt }, rest) := by
  rw [lotus_loop', lotus_loop]
  rcases receipt_of_return res with e | receipt <;> simp

theorem lotus_loop'_call (new_trace : LotusTrace) (send_params : SendParams)
    (rest : List ExecutionEvent) :
    lotus_loop' new_trace (.Call send_params :: rest) =
      match build_lotus_trace' (.Call send_params) rest with
      | .error e => .error e
      | .ok (child, rest') =>
          lotus_loop' { new_trace with subcalls := new_trace.subcalls ++ [child] } rest' := by
  rw [lotus_loop', lotus_loop]
  case x => intro res h; exact ExecutionEvent.noConfusion h
  rcases h : build_lotus_trace (.Call send_params) rest with e | ⟨child, rest', h'⟩
  · simp [build_lotus_trace', h]
  · simp only [build_lotus_trace', h]
    rcases h2 : lotus_loop { new_trace with subcalls := new_trace.subcalls ++ [child] } rest' with
      e | ⟨t', rest'', h''⟩ <;> simp [lotus_loop', h2]

theorem build_lotus_trace'_length (new_call : ExecutionEvent) (events : List ExecutionEvent)
    (t : LotusTrace) (rest : List ExecutionEvent)
    (h : build_lotus_trace' new_call events = .ok (t, rest)) :
    rest.length ≤ events.length := by
  unfold build_lotus_trace' at h
  rcases h2 : build_lotus_trace new_call events with e | ⟨t', rest'⟩ <;> rw [h2] at h
  · exact absurd h (by simp)
  · simp at h
    rcases h with ⟨h1, h3⟩
    exact h3 ▸ rest'.property

/-- A concrete set of send parameters, used to instantiate theorems at
concrete inputs. -/
def sample_send_params : SendParams :=
  { from_ := 0, to_ := Address.new_id 0, method := 0, params := [], value := 0 }

/-- Claim C3 (counterexample): the closed set of dispatch-failure
reasons handled by the mapping has eleven members, not ten as the claim
counts them. -/
theorem syscall_exit_code_card_counterexample :
    Fintype.card ErrorNumber = 11 ∧ Fintype.card ErrorNumber ≠ 10 := by
  constructor <;> decide

/-- Claim C3 (amended: the closed set has eleven reasons, not ten): the
dispatch-failure-to-exit-code mapping is a total function on the closed
set of eleven reasons; `InsufficientFunds` maps to
`SYS_INSUFFICIENT_FUNDS`, `NotFound` maps to `SYS_INVALID_RECEIVER`,
every other reason maps to `SYS_ASSERTION_FAILED`, and the three target
codes are pairwise distinct. -/
theorem syscall_exit_code_spec :
    syscall_exit_code .InsufficientFunds = ExitCode.SYS_INSUFFICIENT_FUNDS ∧
    syscall_exit_code .NotFound = ExitCode.SYS_INVALID_RECEIVER ∧
    (∀ e : ErrorNumber, e ≠ .InsufficientFunds → e ≠ .NotFound →
      syscall_exit_code e = ExitCode.SYS_ASSERTION_FAILED) ∧
    ExitCode.SYS_INSUFFICIENT_FUNDS ≠ ExitCode.SYS_INVALID_RECEIVER ∧
    ExitCode.SYS_INSUFFICIENT_FUNDS ≠ ExitCode.SYS_ASSERTION_FAILED ∧
    ExitCode.SYS_INVALID_RECEIVER ≠ ExitCode.SYS_ASSERTION_FAILED ∧
    Fintype.card ErrorNumber = 11 := by
  decide

theorem syscall_exit_code_spec_witness :
    syscall_exit_code .IllegalCid = ExitCode.SYS_ASSERTION_FAILED :=
  syscall_exit_code_spec.2.2.1 .IllegalCid (by decide) (by decide)

/-- Claim C2: how a frame reached by the reconstruction loop is closed
by a `Return` event: a `Success(data)` outcome yields exit code OK with
return data `data`; a `Failure(code)` outcome yields exit code `code`
verbatim unless `code` is a success code, in which case reconstruction
fails; a dispatch error yields the exit code from the syscall mapping
with empty return data. -/
theorem receipt_finalization (new_trace : LotusTrace) (rest : List ExecutionEvent) :
    (∀ data : RawBytes,
      lotus_loop' new_trace (.Return (.ok (.Return data)) :: rest) =
        .ok ({ new_trace with
               msg_receipt := { exit_code := ExitCode.OK, return_data := data, gas_used := 0 } },
             rest)) ∧
    (∀ code : ExitCode, code.is_success = false →
      lotus_loop' new_trace (.Return (.ok (.Failure code)) :: rest) =
        .ok ({ new_trace with
               msg_receipt := { exit_code := code, return_data := [], gas_used := 0 } },
             rest)) ∧
    (∀ code : ExitCode, code.is_success = true →
      lotus_loop' new_trace (.Return (.ok (.Failure code)) :: rest) =
        .error "actor failed with status OK") ∧
    (∀ err : SyscallError,
      lotus_loop' new_trace (.Return (.error err) :: rest) =
        .ok ({ new_trace with
               msg_receipt := { exit_code := syscall_exit_code err.errno,
                                return_data := [], gas_used := 0 } },
             rest)) := by
  refine ⟨fun data => ?_, fun code h => ?_, fun code h => ?_, fun err => ?_⟩ <;>
    rw [lotus_loop'_return]
  · simp [receipt_of_return]
  · simp [receipt_of_return, h]
  · simp [receipt_of_return, h]
  · simp [receipt_of_return]

theorem receipt_finalization_witness :
    (lotus_loop' (start_trace sample_send_params) [.Return (.ok (.Failure ⟨7⟩))] =
      .ok ({ start_trace sample_send_params with
             msg_receipt := { exit_code := ⟨7⟩, return_data := [], gas_used := 0 } },
           [])) ∧
    (lotus_loop' (start_trace sample_send_params) [.Return (.ok (.Failure ⟨0⟩))] =
      .error "actor failed with status OK") :=
  ⟨(receipt_finalization _ _).2.1 ⟨7⟩ rfl, (receipt_finalization _ _).2.2.1 ⟨0⟩ rfl⟩

/-- `fvm::executor::ApplyKind`. -/
inductive ApplyKind where
  | Explicit
  | Implicit
deriving DecidableEq

/-- The `apply_kind` conversion at machine.rs:203-207: 0 is Explicit,
everything else Implicit. -/
def to_apply_kind (apply_kind : Nat) : ApplyKind :=
  if apply_kind = 0 then ApplyKind.Explicit else ApplyKind.Implicit

/-- `ffi_toolkit::FCPResponseStatus` (only the variants machine.rs
uses). -/
inductive FCPResponseStatus where
  | FCPNoError
  | FCPUnclassifiedError
  | FCPReceiverError
deriving DecidableEq

/-- The engine's `ApplyRet` as consumed by machine.rs: receipt, penalty
and miner tip (128-bit amounts as `Nat`), the flat execution trace and
the optional failure info. -/
structure ApplyRet where
  msg_receipt : Receipt
  penalty : Nat
  miner_tip : Nat
  exec_trace : List ExecutionEvent
  failure_info : Option String

/-- `fil_FvmMachineExecuteResponse` (declared in the types module of the
same crate): FFI pointers are embedded as `Option` values, `none`
standing for the null pointer that `default()` leaves in place. -/
structure fil_FvmMachineExecuteResponse where
  status_code : FCPResponseStatus
  error_msg : Option String
  exec_trace_ptr : Option (List Nat)
  exec_trace_len : Nat
  failure_info_ptr : Option String
  failure_info_len : Nat
  return_ptr : Option (List Nat)
  return_len : Nat
  exit_code : Nat
  gas_used : Nat
  penalty_hi : Nat
  penalty_lo : Nat
  miner_tip_hi : Nat
  miner_tip_lo : Nat
deriving DecidableEq

/-- `fil_FvmMachineExecuteResponse::default()`: null pointers, zero
lengths, success status. -/
def default_execute_response : fil_FvmMachineExecuteResponse :=
  { status_code := .FCPNoError
    error_msg := none
    exec_trace_ptr := none
    exec_trace_len := 0
    failure_info_ptr := none
    failure_info_len := 0
    return_ptr := none
    return_len := 0
    exit_code := 0
    gas_used := 0
    penalty_hi := 0
    penalty_lo := 0
    miner_tip_hi := 0
    miner_tip_lo := 0 }

/-- The trace branch of `fil_fvm_machine_execute_message`
(machine.rs:274-289): if the trace is non-empty, reconstruct it from the
first event plus the rest of the iterator, serialize it with `to_vec`,
and keep the bytes only if both steps succeed.  `to_vec` (the tuple
serializer of the `fvm_ipld_encoding` dependency) is a parameter. -/
def exec_trace_bytes (to_vec : LotusTrace → Except String (List Nat)) :
    List ExecutionEvent → Option (List Nat)
  | [] => none
  | e :: rest =>
      match build_lotus_trace' e rest with
      | .ok (lotus_trace, _) =>
          match to_vec lotus_trace with
          | .ok bytes => some bytes
          | .error _ => none
      | .error _ => none

/-- The response built from a successful engine application
(machine.rs:274-318): trace branch, failure info, the empty-return-data
special case at lines 302-309, and the receipt / penalty / miner-tip
fields, the 128-bit amounts split into 64-bit halves with `as u64`
casts. -/
def execute_response_of (to_vec : LotusTrace → Except String (List Nat))
    (apply_ret : ApplyRet) : fil_FvmMachineExecuteResponse :=
  let trace_bytes := exec_trace_bytes to_vec apply_ret.exec_trace
  { status_code := .FCPNoError
    error_msg := none
    exec_trace_ptr := trace_bytes
    exec_trace_len := (trace_bytes.map List.length).getD 0
    failure_info_ptr := apply_ret.failure_info
    failure_info_len := ((apply_ret.failure_info.map String.length)).getD 0
    return_ptr :=
      if apply_ret.msg_receipt.return_data = [] then none
      else some apply_ret.msg_receipt.return_data
    return_len :=
      if apply_ret.msg_receipt.return_data = [] then 0
      else apply_ret.msg_receipt.return_data.length
    exit_code := apply_ret.msg_receipt.exit_code.value
    gas_used := apply_ret.msg_receipt.gas_used
    penalty_hi := (apply_ret.penalty >>> 64) % 2 ^ 64
    penalty_lo := apply_ret.penalty % 2 ^ 64
    miner_tip_hi := (apply_ret.miner_tip >>> 64) % 2 ^ 64
    miner_tip_lo := apply_ret.miner_tip % 2 ^ 64 }

/-- `fil_fvm_machine_execute_message` (machine.rs:189-324), with its
external collaborators as parameters: `execute_message` is the engine
call behind the mutex, `to_vec` the trace serializer, and
`decoded_message` the result of `fvm_ipld_encoding::from_slice` on the
message bytes.  Logging and timing are side effects with no bearing on
the response and are not modelled. -/
def fil_fvm_machine_execute_message
    (execute_message : Message → ApplyKind → Except String ApplyRet)
    (to_vec : LotusTrace → Except String (List Nat))
    (decoded_message : Except String Message)
    (apply_kind : Nat) : fil_FvmMachineExecuteResponse :=
  let kind := to_apply_kind apply_kind
  match decoded_message with
  | .error err =>
      { default_execute_response with
        status_code := .FCPUnclassifiedError, error_msg := some err }
  | .ok message =>
      match execute_message message kind with
      | .error err =>
          { default_execute_response with
            status_code := .FCPUnclassifiedError, error_msg := some err }
      | .ok apply_ret => execute_response_of to_vec apply_ret

/-- Claim C10: apply-kind 0 is interpreted as Explicit, every non-zero
value as Implicit, and no apply-kind value is rejected: the execute
call's result is the same for all non-zero values. -/
theorem apply_kind_interpretation :
    to_apply_kind 0 = ApplyKind.Explicit ∧
    (∀ n : Nat, n ≠ 0 → to_apply_kind n = ApplyKind.Implicit) ∧
    (∀ execute_message to_vec decoded_message (n m : Nat), n ≠ 0 → m ≠ 0 →
      fil_fvm_machine_execute_message execute_message to_vec decoded_message n =
        fil_fvm_machine_execute_message execute_message to_vec decoded_message m) := by
  refine ⟨rfl, fun n hn => ?_, fun e v d n m hn hm => ?_⟩
  · simp [to_apply_kind, hn]
  · simp [fil_fvm_machine_execute_message, to_apply_kind, hn, hm]

theorem apply_kind_interpretation_witness :
    to_apply_kind 2 = ApplyKind.Implicit ∧
    fil_fvm_machine_execute_message (fun _ _ => .error "e") (fun _ => .ok [])
        (.error "bad message") 2 =
      fil_fvm_machine_execute_message (fun _ _ => .error "e") (fun _ => .ok [])
        (.error "bad message") 7 :=
  ⟨apply_kind_interpretation.2.1 2 (by decide),
   apply_kind_interpretation.2.2 _ _ _ 2 7 (by decide) (by decide)⟩

/-- A concrete apply result whose receipt carries empty return data. -/
def sample_apply_ret_empty : ApplyRet :=
  { msg_receipt := { exit_code := ⟨0⟩, return_data := [], gas_used := 3 }
    penalty := 0
    miner_tip := 0
    exec_trace := []
    failure_info := none }

/-- Claim C5 (counterexample): an execute result whose receipt return
data is empty carries a NULL return-data pointer (the code deliberately
skips the buffer for empty data, machine.rs:302-309), contradicting the
claim that a present-but-empty buffer crosses as a non-null pointer. -/
theorem empty_return_data_counterexample :
    sample_apply_ret_empty.msg_receipt.return_data = [] ∧
    (execute_response_of (fun _ => .ok []) sample_apply_ret_empty).return_ptr = none := by
  constructor <;> rfl

/-- Claim C5 (amended): an execute result whose receipt return data is
empty leaves the return-data pointer null with length zero; only
non-empty return data is copied out, with a pointer to exactly those
bytes and the matching length. -/
theorem return_data_pointer (to_vec : LotusTrace → Except String (List Nat))
    (apply_ret : ApplyRet) :
    (apply_ret.msg_receipt.return_data = [] →
      (execute_response_of to_vec apply_ret).return_ptr = none ∧
      (execute_response_of to_vec apply_ret).return_len = 0) ∧
    (apply_ret.msg_receipt.return_data ≠ [] →
      (execute_response_of to_vec apply_ret).return_ptr =
        some apply_ret.msg_receipt.return_data ∧
      (execute_response_of to_vec apply_ret).return_len =
        apply_ret.msg_receipt.return_data.length) := by
  constructor <;> intro h <;> constructor <;> simp [execute_response_of, h]

theorem return_data_pointer_witness :
    ((execute_response_of (fun _ => .ok []) sample_apply_ret_empty).return_ptr = none ∧
      (execute_response_of (fun _ => .ok []) sample_apply_ret_empty).return_len = 0) ∧
    ((execute_response_of (fun _ => .ok [])
        { sample_apply_ret_empty with
          msg_receipt := { exit_code := ⟨0⟩, return_data := [1, 2], gas_used := 3 } }).return_ptr =
        some [1, 2]) :=
  ⟨(return_data_pointer _ _).1 rfl,
   ((return_data_pointer _ _).2 (by decide)).1⟩

/-- Claim C6: when the engine application succeeded but trace
reconstruction (or trace serialization) fails, only the trace step is
abandoned: the response still reports success and carries the receipt's
exit code, gas and return data, with the trace fields left null. -/
theorem trace_failure_degrades (to_vec : LotusTrace → Except String (List Nat))
    (apply_ret : ApplyRet) (e : ExecutionEvent) (rest : List ExecutionEvent)
    (htrace : apply_ret.exec_trace = e :: rest)
    (hfail : (∃ err, build_lotus_trace' e rest = .error err) ∨
             (∃ t rem err, build_lotus_trace' e rest = .ok (t, rem) ∧ to_vec t = .error err)) :
    (execute_response_of to_vec apply_ret).status_code = .FCPNoError ∧
    (execute_response_of to_vec apply_ret).exec_trace_ptr = none ∧
    (execute_response_of to_vec apply_ret).exec_trace_len = 0 ∧
    (execute_response_of to_vec apply_ret).exit_code =
      apply_ret.msg_receipt.exit_code.value ∧
    (execute_response_of to_vec apply_ret).gas_used = apply_ret.msg_receipt.gas_used ∧
    (execute_response_of to_vec apply_ret).return_ptr =
      (if apply_ret.msg_receipt.return_data = [] then none
       else some apply_ret.msg_receipt.return_data) := by
  have hbytes : exec_trace_bytes to_vec apply_ret.exec_trace = none := by
    rw [htrace]
    rcases hfail with ⟨err, herr⟩ | ⟨t, rem, err, hok, herr⟩
    · simp [exec_trace_bytes, herr]
    · simp [exec_trace_bytes, hok, herr]
  refine ⟨rfl, ?_, ?_, rfl, rfl, rfl⟩ <;> simp [execute_response_of, hbytes]

theorem trace_failure_degrades_witness :
    (execute_response_of (fun _ => .ok [])
        { sample_apply_ret_empty with
          exec_trace := [.Call sample_send_params] }).status_code = .FCPNoError ∧
    (execute_response_of (fun _ => .ok [])
        { sample_apply_ret_empty with
          exec_trace := [.Call sample_send_params] }).exec_trace_ptr = none :=
  have h := trace_failure_degrades (fun _ => .ok [])
    { sample_apply_ret_empty with exec_trace := [.Call sample_send_params] }
    (.Call sample_send_params) [] rfl
    (.inl ⟨_, (build_lotus_trace'_call _ _).trans (lotus_loop'_nil _)⟩)
  ⟨h.1, h.2.1⟩

/-- If the low half is below `2 ^ k`, or-ing it under a left shift by
`k` is plain positional addition. -/
theorem shiftLeft_lor_eq : ∀ (k a b : Nat), b < 2 ^ k → (a <<< k) ||| b = a * 2 ^ k + b := by
  intro k
  induction k with
  | zero =>
    intro a b hb
    have hb0 : b = 0 := by omega
    subst hb0
    simp [Nat.shiftLeft_zero]
  | succ k ih =>
    intro a b hb
    have h1 : a <<< (k + 1) = Nat.bit false (a <<< k) := by
      simp [Nat.bit_val, Nat.shiftLeft_eq, pow_succ]
      ring
    have h2 : Nat.bit b.bodd b.div2 = b := Nat.bit_decomp b
    have hdiv : b.div2 < 2 ^ k := by
      rw [Nat.div2_val]
      have : (2 : Nat) ^ (k + 1) = 2 ^ k * 2 := pow_succ 2 k
      omega
    calc (a <<< (k + 1)) ||| b
        = Nat.bit false (a <<< k) ||| Nat.bit b.bodd b.div2 := by rw [h1, h2]
      _ = Nat.bit (false || b.bodd) ((a <<< k) ||| b.div2) :=
          Nat.lor_bit false (a <<< k) b.bodd b.div2
      _ = Nat.bit b.bodd (a * 2 ^ k + b.div2) := by rw [ih a b.div2 hdiv]; simp
      _ = a * 2 ^ (k + 1) + b := by
          have h3 : 2 * b.div2 + b.bodd.toNat = b := by
            have h4 := Nat.bit_decomp b
            rw [Nat.bit_val] at h4
            omega
          have h5 : a * 2 ^ (k + 1) = 2 * (a * 2 ^ k) := by ring
          simp only [Nat.bit_val]
          omega

/-- The base fee reconstructed by `fil_create_fvm_machine` from its two
64-bit halves (machine.rs:88-89). -/
def fil_create_base_fee (base_fee_hi base_fee_lo : Nat) : Nat :=
  (base_fee_hi <<< 64) ||| base_fee_lo

/-- The circulating supply reconstructed by `fil_create_fvm_machine`
from its two 64-bit halves (machine.rs:85-87). -/
def fil_create_base_circ_supply (base_circ_supply_hi base_circ_supply_lo : Nat) : Nat :=
  (base_circ_supply_hi <<< 64) ||| base_circ_supply_lo

/-- Claim C8: 128-bit economic quantities cross the boundary as two
64-bit halves combined by shift-or: create combines the base-fee and
circulating-supply halves into exactly `hi * 2 ^ 64 + lo`, and for the
penalty and miner tip returned by execute, recombining the returned
halves with `(hi <<< 64) ||| lo` gives back the original 128-bit
value. -/
theorem u128_boundary_halves (to_vec : LotusTrace → Except String (List Nat))
    (apply_ret : ApplyRet) (hi lo : Nat) :
    (hi < 2 ^ 64 → lo < 2 ^ 64 →
      fil_create_base_fee hi lo = hi * 2 ^ 64 + lo ∧
      fil_create_base_circ_supply hi lo = hi * 2 ^ 64 + lo) ∧
    (apply_ret.penalty < 2 ^ 128 →
      ((execute_response_of to_vec apply_ret).penalty_hi <<< 64) |||
          (execute_response_of to_vec apply_ret).penalty_lo = apply_ret.penalty) ∧
    (apply_ret.miner_tip < 2 ^ 128 →
      ((execute_response_of to_vec apply_ret).miner_tip_hi <<< 64) |||
          (execute_response_of to_vec apply_ret).miner_tip_lo = apply_ret.miner_tip) := by
  have key : ∀ p : Nat, p < 2 ^ 128 →
      (((p >>> 64) % 2 ^ 64) <<< 64) ||| (p % 2 ^ 64) = p := by
    intro p hp
    rw [Nat.shiftRight_eq_div_pow]
    have hdivlt : p / 2 ^ 64 < 2 ^ 64 := by
      apply Nat.div_lt_of_lt_mul
      calc p < 2 ^ 128 := hp
        _ = 2 ^ 64 * 2 ^ 64 := by norm_num
    rw [Nat.mod_eq_of_lt hdivlt,
        shiftLeft_lor_eq 64 (p / 2 ^ 64) (p % 2 ^ 64) (Nat.mod_lt _ (by norm_num))]
    omega
  refine ⟨fun h1 h2 => ?_, fun hp => key _ hp, fun hm => key _ hm⟩
  unfold fil_create_base_fee fil_create_base_circ_supply
  rw [shiftLeft_lor_eq 64 hi lo h2]
  exact ⟨rfl, rfl⟩

theorem u128_boundary_halves_witness :
    (fil_create_base_fee 3 5 = 3 * 2 ^ 64 + 5 ∧
      fil_create_base_circ_supply 3 5 = 3 * 2 ^ 64 + 5) ∧
    ((execute_response_of (fun _ => .ok [])
          { sample_apply_ret_empty with penalty := 7 * 2 ^ 64 + 11 }).penalty_hi <<< 64) |||
        (execute_response_of (fun _ => .ok [])
          { sample_apply_ret_empty with penalty := 7 * 2 ^ 64 + 11 }).penalty_lo =
      7 * 2 ^ 64 + 11 :=
  ⟨(u128_boundary_halves (fun _ => .ok []) sample_apply_ret_empty 3 5).1
      (by norm_num) (by norm_num),
   (u128_boundary_halves (fun _ => .ok [])
      { sample_apply_ret_empty with penalty := 7 * 2 ^ 64 + 11 } 0 0).2.1
      (by norm_num)⟩

/-- A content identifier (`cid::Cid`), kept as its opaque byte form. -/
structure Cid where
  bytes : List Nat
deriving DecidableEq

/-- Modelled from the spec: the root of the built-in v6 actor bundle
(`actors_v6::BUNDLE_CAR`, an external crate; `import_actors` loads the
CAR and takes its single root).  Only its identity matters here. -/
def actors_v6_bundle_root : Cid := ⟨[6]⟩

/-- Modelled from the spec: the root of the built-in v7 actor bundle
(`actors_v7::BUNDLE_CAR`). -/
def actors_v7_bundle_root : Cid := ⟨[7]⟩

/-- `import_actors` (machine.rs:390-409): a supplied manifest CID is
used as-is; otherwise the bundle is chosen by the network version:
v14 selects the built-in v6 bundle, v15 the built-in v7 bundle, v16 is
already migrated and needs no bundle, and anything else is an error.
The CAR loading itself is external; its result is the bundle's root. -/
def import_actors (manifest_cid : Option Cid) (network_version : Nat) :
    Except String (Option Cid) :=
  match manifest_cid with
  | some cid => .ok (some cid)
  | none =>
      if network_version = 14 then .ok (some actors_v6_bundle_root)
      else if network_version = 15 then .ok (some actors_v7_bundle_root)
      else if network_version = 16 then .ok none
      else .error "unsupported network version"

/-- How `fil_create_fvm_machine` reacts to `import_actors`
(machine.rs:136-147): a resolved manifest overrides the builtin actors,
`None` leaves the network configuration untouched, and an error aborts
create with an unclassified-error status.  A zero-length manifest
argument arrives here as `none` (machine.rs:111-131). -/
def fil_create_actors_step (manifest_cid : Option Cid) (network_version : Nat) :
    FCPResponseStatus × Option Cid :=
  match import_actors manifest_cid network_version with
  | .ok (some manifest) => (.FCPNoError, some manifest)
  | .ok none => (.FCPNoError, none)
  | .error _ => (.FCPUnclassifiedError, none)

/-- Claim C7: with no manifest CID supplied, the actor bundle is a fixed
table on the network version — 14 selects the built-in v6 bundle, 15 the
built-in v7 bundle, 16 supplies no bundle, and any other version makes
create fail with an error status instead of defaulting; a supplied
manifest CID is used as-is regardless of network version. -/
theorem actor_bundle_resolution :
    import_actors none 14 = .ok (some actors_v6_bundle_root) ∧
    import_actors none 15 = .ok (some actors_v7_bundle_root) ∧
    import_actors none 16 = .ok none ∧
    (∀ nv : Nat, nv ≠ 14 → nv ≠ 15 → nv ≠ 16 →
      import_actors none nv = .error "unsupported network version" ∧
      fil_create_actors_step none nv = (.FCPUnclassifiedError, none)) ∧
    (∀ (cid : Cid) (nv : Nat),
      import_actors (some cid) nv = .ok (some cid) ∧
      fil_create_actors_step (some cid) nv = (.FCPNoError, some cid)) := by
  refine ⟨rfl, rfl, rfl, fun nv h14 h15 h16 => ?_, fun cid nv => ⟨rfl, rfl⟩⟩
  have h : import_actors none nv = .error "unsupported network version" := by
    simp [import_actors, h14, h15, h16]
  exact ⟨h, by simp [fil_create_actors_step, h]⟩

theorem actor_bundle_resolution_witness :
    import_actors none 13 = .error "unsupported network version" ∧
    fil_create_actors_step none 13 = (.FCPUnclassifiedError, none) :=
  actor_bundle_resolution.2.2.2.1 13 (by decide) (by decide) (by decide)

/-- Whether a `Return` outcome violates the contract (a `Failure`
carrying a success exit code) and therefore fails reconstruction. -/
def bad_return : Except SyscallError InvocationResult → Bool
  | .ok (.Failure exit_code) => exit_code.is_success
  | _ => false

theorem receipt_of_return_error (res : Except SyscallError InvocationResult) :
    (∃ msg, receipt_of_return res = .error msg) ↔ bad_return res = true := by
  rcases res with err | r
  · simp [receipt_of_return, bad_return]
  · rcases r with d | c
    · simp [receipt_of_return, bad_return]
    · by_cases h : c.is_success <;> simp [receipt_of_return, bad_return, h]

/-- Depth scan of an event stream with `depth` frames currently open:
the events remaining after every open frame has received its matching
`Return`, or `none` if the stream ends first. -/
def remainder_after_close : Nat → List ExecutionEvent → Option (List ExecutionEvent)
  | _, [] => none
  | depth, .Call _ :: rest => remainder_after_close (depth + 1) rest
  | depth, .Return _ :: rest =>
      if depth = 1 then some rest else remainder_after_close (depth - 1) rest

/-- Whether, with `depth` frames open, some `Return` event consumed
before every open frame is closed carries a contract-violating
outcome. -/
def bad_return_before_close : Nat → List ExecutionEvent → Bool
  | _, [] => false
  | depth, .Call _ :: rest => bad_return_before_close (depth + 1) rest
  | depth, .Return res :: rest =>
      bad_return res ||
        (if depth = 1 then false else bad_return_before_close (depth - 1) rest)

theorem remainder_after_close_length :
    ∀ (es : List ExecutionEvent) (d : Nat) (rem : List ExecutionEvent),
      remainder_after_close d es = some rem → rem.length < es.length := by
  intro es
  induction es with
  | nil => intro d rem h; simp [remainder_after_close] at h
  | cons e rest ih =>
    intro d rem h
    cases e with
    | Call p =>
      simp only [remainder_after_close] at h
      have := ih _ _ h
      simp only [List.length_cons]
      omega
    | Return res =>
      simp only [remainder_after_close] at h
      by_cases hd : d = 1
      · rw [if_pos hd] at h
        cases h
        simp
      · rw [if_neg hd] at h
        have := ih _ _ h
        simp only [List.length_cons]
        omega

theorem remainder_after_close_comp :
    ∀ (es : List ExecutionEvent) (d : Nat), 1 ≤ d →
      remainder_after_close (d + 1) es =
        (remainder_after_close d es).bind (remainder_after_close 1) := by
  intro es
  induction es with
  | nil => intro d hd; simp [remainder_after_close]
  | cons e rest ih =>
    intro d hd
    cases e with
    | Call p =>
      simp only [remainder_after_close]
      exact ih (d + 1) (by omega)
    | Return res =>
      obtain ⟨k, rfl⟩ : ∃ k, d = k + 1 := ⟨d - 1, by omega⟩
      by_cases hk : k = 0
      · subst hk
        simp [remainder_after_close]
      · simp only [remainder_after_close]
        rw [if_neg (by omega : ¬ k + 1 + 1 = 1), if_neg (by omega : ¬ k + 1 = 1)]
        have h1 : k + 1 + 1 - 1 = (k - 1) + 1 + 1 := by omega
        have h2 : k + 1 - 1 = (k - 1) + 1 := by omega
        rw [h1, h2]
        exact ih ((k - 1) + 1) (by omega)

theorem bad_return_before_close_comp :
    ∀ (es : List ExecutionEvent) (d : Nat), 1 ≤ d →
      bad_return_before_close (d + 1) es =
        (bad_return_before_close d es ||
          (remainder_after_close d es).elim false (bad_return_before_close 1)) := by
  intro es
  induction es with
  | nil => intro d hd; simp [bad_return_before_close, remainder_after_close]
  | cons e rest ih =>
    intro d hd
    cases e with
    | Call p =>
      simp only [bad_return_before_close, remainder_after_close]
      exact ih (d + 1) (by omega)
    | Return res =>
      obtain ⟨k, rfl⟩ : ∃ k, d = k + 1 := ⟨d - 1, by omega⟩
      by_cases hk : k = 0
      · subst hk
        simp [bad_return_before_close, remainder_after_close]
      · simp only [bad_return_before_close, remainder_after_close]
        rw [if_neg (by omega : ¬ k + 1 + 1 = 1), if_neg (by omega : ¬ k + 1 = 1)]
        have h1 : k + 1 + 1 - 1 = (k - 1) + 1 + 1 := by omega
        have h2 : k + 1 - 1 = (k - 1) + 1 := by omega
        rw [h1, h2, ih ((k - 1) + 1) (by omega), Bool.or_assoc,
          if_neg (by omega : ¬ k + 1 = 1)]

/-- Full characterization of the reconstruction loop against the depth
scanners: on success the loop leaves exactly the events past the
matching close, and it errors exactly when the stream ends with the
frame still open or a consumed `Return` is contract-violating. -/
theorem lotus_loop'_spec (es : List ExecutionEvent) (t : LotusTrace) :
    (∀ t' rem, lotus_loop' t es = .ok (t', rem) → remainder_after_close 1 es = some rem) ∧
    ((∃ msg, lotus_loop' t es = .error msg) ↔
      (remainder_after_close 1 es = none ∨ bad_return_before_close 1 es = true)) := by
  suffices H : ∀ (n : Nat) (es : List ExecutionEvent), es.length ≤ n → ∀ t : LotusTrace,
      (∀ t' rem, lotus_loop' t es = .ok (t', rem) → remainder_after_close 1 es = some rem) ∧
      ((∃ msg, lotus_loop' t es = .error msg) ↔
        (remainder_after_close 1 es = none ∨ bad_return_before_close 1 es = true)) by
    exact H es.length es le_rfl t
  intro n
  induction n with
  | zero =>
    intro es hlen t
    have hnil : es = [] := List.length_eq_zero.mp (by omega)
    subst hnil
    refine ⟨fun t' rem h => ?_, ?_⟩
    · rw [lotus_loop'_nil] at h
      cases h
    · simp [lotus_loop'_nil, remainder_after_close]
  | succ n ih =>
    intro es hlen t
    cases es with
    | nil =>
      refine ⟨fun t' rem h => ?_, ?_⟩
      · rw [lotus_loop'_nil] at h
        cases h
      · simp [lotus_loop'_nil, remainder_after_close]
    | cons e rest =>
      have hrest : rest.length ≤ n := by
        simp only [List.length_cons] at hlen
        omega
      cases e with
      | Return res =>
        rcases hr : receipt_of_return res with msg | receipt
        · have hbad : bad_return res = true :=
            (receipt_of_return_error res).mp ⟨msg, hr⟩
          refine ⟨fun t' rem h => ?_, ?_⟩
          · rw [lotus_loop'_return, hr] at h
            cases h
          · constructor
            · intro _
              right
              simp [bad_return_before_close, hbad]
            · intro _
              exact ⟨msg, by rw [lotus_loop'_return, hr]⟩
        · have hbad : bad_return res = false := by
            by_contra hb
            rcases (receipt_of_return_error res).mpr (by revert hb; cases bad_return res <;> simp) with
              ⟨msg, hmsg⟩
            rw [hr] at hmsg
            cases hmsg
          refine ⟨fun t' rem h => ?_, ?_⟩
          · rw [lotus_loop'_return, hr] at h
            cases h
            simp [remainder_after_close]
          · constructor
            · rintro ⟨msg, hmsg⟩
              rw [lotus_loop'_return, hr] at hmsg
              cases hmsg
            · rintro (hnone | hbad2)
              · simp [remainder_after_close] at hnone
              · simp [bad_return_before_close, hbad] at hbad2
      | Call q =>
        have hstep0 : lotus_loop' t (.Call q :: rest) =
            match lotus_loop' (start_trace q) rest with
            | .error e => .error e
            | .ok (child, rest') =>
                lotus_loop' { t with subcalls := t.subcalls ++ [child] } rest' := by
          rw [lotus_loop'_call, build_lotus_trace'_call]
        rcases h1 : lotus_loop' (start_trace q) rest with msg | ⟨child, rest'⟩
        · have hrb := (ih rest hrest (start_trace q)).2.mp ⟨msg, h1⟩
          have herr : lotus_loop' t (.Call q :: rest) = .error msg := by
            rw [hstep0, h1]
          refine ⟨fun t' rem h => ?_, ?_⟩
          · rw [herr] at h
            cases h
          · constructor
            · intro _
              rcases hrb with hnone | hbad
              · left
                show remainder_after_close 2 rest = none
                rw [remainder_after_close_comp rest 1 le_rfl, hnone]
                rfl
              · right
                show bad_return_before_close 2 rest = true
                rw [bad_return_before_close_comp rest 1 le_rfl, hbad]
                rfl
            · intro _
              exact ⟨msg, herr⟩
        · have hrem : remainder_after_close 1 rest = some rest' :=
            (ih rest hrest (start_trace q)).1 child rest' h1
          have hlt : rest'.length < rest.length :=
            remainder_after_close_length rest 1 rest' hrem
          have hbad : bad_return_before_close 1 rest = false := by
            by_contra hb
            rcases (ih rest hrest (start_trace q)).2.mpr
                (.inr (by revert hb; cases bad_return_before_close 1 rest <;> simp)) with
              ⟨msg, hmsg⟩
            rw [h1] at hmsg
            cases hmsg
          have hstep : lotus_loop' t (.Call q :: rest) =
              lotus_loop' { t with subcalls := t.subcalls ++ [child] } rest' := by
            rw [hstep0, h1]
          have hih := ih rest' (by omega) { t with subcalls := t.subcalls ++ [child] }
          have hrac : remainder_after_close 1 (.Call q :: rest) =
              remainder_after_close 1 rest' := by
            show remainder_after_close 2 rest = _
            rw [remainder_after_close_comp rest 1 le_rfl, hrem]
            rfl
          have hbad2 : bad_return_before_close 1 (.Call q :: rest) =
              bad_return_before_close 1 rest' := by
            show bad_return_before_close 2 rest = _
            rw [bad_return_before_close_comp rest 1 le_rfl, hrem, hbad]
            simp [Option.elim]
          refine ⟨fun t' rem h => ?_, ?_⟩
          · rw [hstep] at h
            rw [hrac]
            exact hih.1 t' rem h
          · rw [hrac, hbad2]
            constructor
            · rintro ⟨msg, hmsg⟩
              rw [hstep] at hmsg
              exact hih.2.mp ⟨msg, hmsg⟩
            · intro h2
              rcases hih.2.mpr h2 with ⟨msg, hmsg⟩
              exact ⟨msg, by rw [hstep, hmsg]⟩

/-- Claim C4 (counterexample): a sequence in which the only opened frame
does receive its matching Return, and whose first element is a Call,
still fails reconstruction — because the Return carries a Failure
outcome with a success exit code.  The claim's two malformation cases
are therefore not exhaustive. -/
theorem malformed_trace_counterexample :
    build_lotus_trace' (.Call sample_send_params) [.Return (.ok (.Failure ⟨0⟩))] =
      .error "actor failed with status OK" ∧
    remainder_after_close 1 [.Return (.ok (.Failure ⟨0⟩))] = some [] :=
  ⟨(build_lotus_trace'_call _ _).trans ((receipt_finalization _ _).2.2.1 ⟨0⟩ rfl), rfl⟩

/-- Claim C4 (amended): reconstruction fails exactly when the first
element given to it is a Return, or the event sequence ends before every
opened frame has received its matching Return, or a consumed Return
closes a frame with a Failure outcome carrying a success exit code; for
every such sequence the result is an error, never a partially built tree
returned as success. -/
theorem malformed_trace_characterization (e : ExecutionEvent) (es : List ExecutionEvent) :
    (∃ msg, build_lotus_trace' e es = .error msg) ↔
      ((∃ res, e = ExecutionEvent.Return res) ∨
       remainder_after_close 1 es = none ∨
       bad_return_before_close 1 es = true) := by
  cases e with
  | Return res =>
    constructor
    · intro _
      exact .inl ⟨res, rfl⟩
    · intro _
      exact ⟨_, build_lotus_trace'_return res es⟩
  | Call p =>
    have h := (lotus_loop'_spec es (start_trace p)).2
    simp only [build_lotus_trace'_call]
    rw [h]
    constructor
    · intro h2
      exact .inr h2
    · rintro (⟨res, hres⟩ | h2)
      · cases hres
      · exact h2

theorem malformed_trace_characterization_witness :
    build_lotus_trace' (.Call sample_send_params) [.Call sample_send_params] =
      .error "should have returned on an ExecutionEvent:Return" := by
  have h := (malformed_trace_characterization (.Call sample_send_params)
      [.Call sample_send_params]).mpr (.inr (.inl rfl))
  rw [build_lotus_trace'_call, lotus_loop'_call, build_lotus_trace'_call, lotus_loop'_nil]

/-- Whether a single event respects the receipt contract (only a
`Return` with a success-coded `Failure` violates it). -/
def event_ok : ExecutionEvent → Bool
  | .Return res => !bad_return res
  | .Call _ => true

/-- All events of the sequence respect the receipt contract. -/
def good_outcomes (es : List ExecutionEvent) : Bool := es.all event_ok

/-- The number of `Call` events in a sequence. -/
def call_count (es : List ExecutionEvent) : Nat :=
  es.countP fun ev => match ev with | .Call _ => true | _ => false

/-- The maximum concurrent open-call depth reached by a sequence,
starting from `cur` open frames. -/
def max_open_from : Nat → List ExecutionEvent → Nat
  | cur, [] => cur
  | cur, .Call _ :: rest => max cur (max_open_from (cur + 1) rest)
  | cur, .Return _ :: rest => max cur (max_open_from (cur - 1) rest)

/-- The maximum concurrent open-call depth of a sequence. -/
def max_open_depth (es : List ExecutionEvent) : Nat := max_open_from 0 es

theorem max_open_from_ge : ∀ (es : List ExecutionEvent) (cur : Nat),
    cur ≤ max_open_from cur es := by
  intro es
  induction es with
  | nil => intro cur; exact le_rfl
  | cons e rest ih =>
    intro cur
    cases e <;> exact le_max_left _ _

/-- The total number of descendant frames of a reconstructed frame (the
frame itself not counted). -/
def descendant_count : LotusTrace → Nat
  | ⟨_, _, _, subcalls⟩ => (subcalls.attach.map (fun c => 1 + descendant_count c.val)).sum
decreasing_by
  simp only [LotusTrace.mk.sizeOf_spec]
  have := List.sizeOf_lt_of_mem c.property
  omega

theorem descendant_count_eq (t : LotusTrace) :
    descendant_count t = (t.subcalls.map (fun c => 1 + descendant_count c)).sum := by
  cases t with
  | mk msg receipt err subcalls =>
    rw [descendant_count]
    congr 1
    exact List.attach_map_val subcalls (fun c => 1 + descendant_count c)

/-- The nesting depth of a reconstructed frame (a leaf frame has
depth 1). -/
def frame_depth : LotusTrace → Nat
  | ⟨_, _, _, subcalls⟩ => 1 + (subcalls.attach.map (fun c => frame_depth c.val)).foldr max 0
decreasing_by
  simp only [LotusTrace.mk.sizeOf_spec]
  have := List.sizeOf_lt_of_mem c.property
  omega

theorem frame_depth_eq (t : LotusTrace) :
    frame_depth t = 1 + (t.subcalls.map frame_depth).foldr max 0 := by
  cases t with
  | mk msg receipt err subcalls =>
    rw [frame_depth]
    congr 2
    exact List.attach_map_val subcalls frame_depth

/-- A call tree: the abstract shape of one well-formed trace segment — a
call, the trees of its subcalls, and the outcome of its matching
return. -/
inductive CallTree where
  | node (send_params : SendParams) (children : List CallTree)
      (res : Except SyscallError InvocationResult)

/-- The pre-order event serialization of a call tree: its `Call`, the
serializations of its children in order, then its matching `Return`. -/
def serialize_tree : CallTree → List ExecutionEvent
  | .node p cs r =>
      .Call p :: ((cs.attach.map (fun c => serialize_tree c.val)).flatten ++ [.Return r])
decreasing_by
  simp only [CallTree.node.sizeOf_spec]
  have := List.sizeOf_lt_of_mem c.property
  omega

theorem serialize_tree_eq (p : SendParams) (cs : List CallTree)
    (r : Except SyscallError InvocationResult) :
    serialize_tree (.node p cs r) =
      .Call p :: ((cs.map serialize_tree).flatten ++ [.Return r]) := by
  rw [serialize_tree]
  congr 3
  exact List.attach_map_val cs serialize_tree

/-- The receipt a frame ends with, as a total function of the closing
outcome (coincides with `receipt_of_return` whenever the outcome is not
contract-violating). -/
def receipt_value : Except SyscallError InvocationResult → Receipt
  | .ok (.Return return_data) =>
      { exit_code := ExitCode.OK, return_data := return_data, gas_used := 0 }
  | .ok (.Failure exit_code) =>
      { exit_code := exit_code, return_data := [], gas_used := 0 }
  | .error syscall_err =>
      { exit_code := syscall_exit_code syscall_err.errno, return_data := [], gas_used := 0 }

theorem receipt_of_return_good (res : Except SyscallError InvocationResult)
    (h : bad_return res = false) : receipt_of_return res = .ok (receipt_value res) := by
  rcases res with err | r
  · rfl
  · rcases r with d | c
    · rfl
    · simp only [bad_return] at h
      simp [receipt_of_return, receipt_value, h]

/-- The frame that reconstruction produces for a call tree. -/
def to_frame : CallTree → LotusTrace
  | .node p cs r =>
      { start_trace p with
        msg_receipt := receipt_value r
        subcalls := cs.attach.map (fun c => to_frame c.val) }
decreasing_by
  simp only [CallTree.node.sizeOf_spec]
  have := List.sizeOf_lt_of_mem c.property
  omega

theorem to_frame_eq (p : SendParams) (cs : List CallTree)
    (r : Except SyscallError InvocationResult) :
    to_frame (.node p cs r) =
      { start_trace p with
        msg_receipt := receipt_value r
        subcalls := cs.map to_frame } := by
  rw [to_frame]
  congr 1
  exact List.attach_map_val cs to_frame

/-- Well-formedness of an event sequence as the reconstruction's caller
supplies it: it opens with a `Call`, and scanning the rest with one open
frame closes every frame exactly at the end of the sequence. -/
def well_formed_events : List ExecutionEvent → Prop
  | .Call _ :: rest => remainder_after_close 1 rest = some []
  | _ => False

theorem rac_decomposition :
    ∀ (n : Nat) (es : List ExecutionEvent), es.length ≤ n → ∀ rem,
      remainder_after_close 1 es = some rem →
      ∃ (cs : List CallTree) (r : Except SyscallError InvocationResult),
        es = (cs.map serialize_tree).flatten ++ .Return r :: rem := by
  intro n
  induction n with
  | zero =>
    intro es h rem hrac
    have hnil : es = [] := List.length_eq_zero.mp (by omega)
    subst hnil
    simp [remainder_after_close] at hrac
  | succ n ih =>
    intro es hlen rem hrac
    cases es with
    | nil => simp [remainder_after_close] at hrac
    | cons e rest =>
      cases e with
      | Return r =>
        simp only [remainder_after_close, if_true] at hrac
        rw [Option.some.injEq] at hrac
        subst hrac
        exact ⟨[], r, by simp⟩
      | Call q =>
        have h2 : remainder_after_close 2 rest = some rem := hrac
        rw [remainder_after_close_comp rest 1 le_rfl] at h2
        rcases hm : remainder_after_close 1 rest with _ | m
        · rw [hm] at h2
          cases h2
        · rw [hm] at h2
          rw [Option.some_bind] at h2
          have hrestlen : rest.length ≤ n := by
            simp only [List.length_cons] at hlen
            omega
          obtain ⟨cs₁, r₁, hrest⟩ := ih rest hrestlen m hm
          have hmlen : m.length ≤ n := by
            have := remainder_after_close_length rest 1 m hm
            omega
          obtain ⟨cs₂, r₂, hm2⟩ := ih m hmlen rem h2
          refine ⟨CallTree.node q cs₁ r₁ :: cs₂, r₂, ?_⟩
          rw [List.map_cons, List.flatten_cons, serialize_tree_eq, hrest, hm2]
          simp [List.append_assoc]

theorem good_outcomes_append (l₁ l₂ : List ExecutionEvent) :
    good_outcomes (l₁ ++ l₂) = (good_outcomes l₁ && good_outcomes l₂) :=
  List.all_append

theorem lotus_loop'_serialized :
    ∀ (n : Nat) (cs : List CallTree) (r : Except SyscallError InvocationResult)
      (rest : List ExecutionEvent) (t : LotusTrace),
      ((cs.map serialize_tree).flatten ++ ExecutionEvent.Return r :: rest).length ≤ n →
      good_outcomes ((cs.map serialize_tree).flatten) = true →
      bad_return r = false →
      lotus_loop' t ((cs.map serialize_tree).flatten ++ .Return r :: rest) =
        .ok ({ t with
               msg_receipt := receipt_value r
               subcalls := t.subcalls ++ cs.map to_frame }, rest) := by
  intro n
  induction n with
  | zero =>
    intro cs r rest t hlen
    exfalso
    simp only [List.length_append, List.length_cons] at hlen
    omega
  | succ n ih =>
    intro cs r rest t hlen hgood hr
    cases cs with
    | nil =>
      simp only [List.map_nil, List.flatten_nil, List.nil_append]
      rw [lotus_loop'_return, receipt_of_return_good r hr]
      simp
    | cons c cs' =>
      obtain ⟨p, ccs, cr⟩ := c
      have hev : ((CallTree.node p ccs cr :: cs').map serialize_tree).flatten ++
            ExecutionEvent.Return r :: rest =
          ExecutionEvent.Call p ::
            ((ccs.map serialize_tree).flatten ++ ExecutionEvent.Return cr ::
              ((cs'.map serialize_tree).flatten ++ ExecutionEvent.Return r :: rest)) := by
        rw [List.map_cons, List.flatten_cons, serialize_tree_eq]
        simp [List.append_assoc]
      have hgood2 := hgood
      rw [List.map_cons, List.flatten_cons, good_outcomes_append, serialize_tree_eq] at hgood2
      have hgoodc : good_outcomes
          (ExecutionEvent.Call p ::
            ((ccs.map serialize_tree).flatten ++ [ExecutionEvent.Return cr])) = true := by
        rcases Bool.and_eq_true_iff.mp hgood2 with ⟨h1, _⟩
        exact h1
      have hgoodcs' : good_outcomes ((cs'.map serialize_tree).flatten) = true := by
        rcases Bool.and_eq_true_iff.mp hgood2 with ⟨_, h2⟩
        exact h2
      have hgoodccs : good_outcomes ((ccs.map serialize_tree).flatten) = true := by
        simp only [good_outcomes, List.all_cons, List.all_append, Bool.and_eq_true] at hgoodc
        exact hgoodc.2.1
      have hbadcr : bad_return cr = false := by
        simp only [good_outcomes, List.all_cons, List.all_append, Bool.and_eq_true] at hgoodc
        have h3 := hgoodc.2.2
        simp only [List.all_cons, List.all_nil, Bool.and_true, event_ok] at h3
        simpa using h3
      rw [hev] at hlen ⊢
      simp only [List.length_cons, List.length_append] at hlen
      rw [lotus_loop'_call, build_lotus_trace'_call]
      rw [ih ccs cr ((cs'.map serialize_tree).flatten ++ ExecutionEvent.Return r :: rest)
            (start_trace p)
            (by simp only [List.length_append, List.length_cons]; omega)
            hgoodccs hbadcr]
      have hframe : { start_trace p with
            msg_receipt := receipt_value cr
            subcalls := (start_trace p).subcalls ++ ccs.map to_frame } =
          to_frame (CallTree.node p ccs cr) := by
        rw [to_frame_eq]
        simp [start_trace]
      simp only
      rw [hframe]
      rw [ih cs' r rest { t with subcalls := t.subcalls ++ [to_frame (CallTree.node p ccs cr)] }
            (by simp only [List.length_append, List.length_cons]; omega)
            hgoodcs' hr]
      simp [List.append_assoc]

theorem call_count_serialize :
    ∀ (tr : CallTree), 1 + descendant_count (to_frame tr) = call_count (serialize_tree tr) := by
  suffices H : ∀ (n : Nat) (tr : CallTree), sizeOf tr ≤ n →
      1 + descendant_count (to_frame tr) = call_count (serialize_tree tr) from
    fun tr => H (sizeOf tr) tr le_rfl
  intro n
  induction n with
  | zero =>
    intro tr h
    obtain ⟨p, cs, r⟩ := tr
    simp only [CallTree.node.sizeOf_spec] at h
    omega
  | succ n ih =>
    intro tr hsize
    obtain ⟨p, cs, r⟩ := tr
    have hmem : ∀ c ∈ cs, sizeOf c ≤ n := by
      intro c hc
      have := List.sizeOf_lt_of_mem hc
      simp only [CallTree.node.sizeOf_spec] at hsize
      omega
    rw [to_frame_eq, serialize_tree_eq]
    have hdesc : descendant_count
        { start_trace p with
          msg_receipt := receipt_value r
          subcalls := cs.map to_frame } =
        (cs.map (fun c => call_count (serialize_tree c))).sum := by
      rw [descendant_count_eq]
      simp only [List.map_map]
      congr 1
      apply List.map_congr_left
      intro c hc
      exact ih c (hmem c hc)
    rw [hdesc]
    simp only [call_count, List.countP_cons, List.countP_append, List.countP_flatten,
      List.map_map, Function.comp_def]
    simp
    omega

theorem max_open_serialize :
    ∀ (tr : CallTree) (cur : Nat) (rest : List ExecutionEvent),
      max_open_from cur (serialize_tree tr ++ rest) =
        max (cur + frame_depth (to_frame tr)) (max_open_from cur rest) := by
  suffices H : ∀ (n : Nat) (tr : CallTree), sizeOf tr ≤ n → ∀ (cur : Nat)
      (rest : List ExecutionEvent),
      max_open_from cur (serialize_tree tr ++ rest) =
        max (cur + frame_depth (to_frame tr)) (max_open_from cur rest) from
    fun tr => H (sizeOf tr) tr le_rfl
  intro n
  induction n with
  | zero =>
    intro tr h
    obtain ⟨p, cs, r⟩ := tr
    simp only [CallTree.node.sizeOf_spec] at h
    omega
  | succ n ih =>
    intro tr hsize cur rest
    obtain ⟨p, cs, r⟩ := tr
    have hmem : ∀ c ∈ cs, sizeOf c ≤ n := by
      intro c hc
      have := List.sizeOf_lt_of_mem hc
      simp only [CallTree.node.sizeOf_spec] at hsize
      omega
    have ML : ∀ (ds : List CallTree), (∀ d ∈ ds, sizeOf d ≤ n) →
        ∀ (cur2 : Nat) (rest2 : List ExecutionEvent),
        max_open_from cur2 ((ds.map serialize_tree).flatten ++ rest2) =
          max (cur2 + (ds.map (fun d => frame_depth (to_frame d))).foldr max 0)
            (max_open_from cur2 rest2) := by
      intro ds
      induction ds with
      | nil =>
        intro _ cur2 rest2
        simp only [List.map_nil, List.flatten_nil, List.nil_append, List.foldr_nil,
          Nat.add_zero]
        have := max_open_from_ge rest2 cur2
        omega
      | cons d ds' ihds =>
        intro hds cur2 rest2
        have hd : sizeOf d ≤ n := hds d (List.mem_cons_self d ds')
        have hds' : ∀ x ∈ ds', sizeOf x ≤ n := fun x hx => hds x (List.mem_cons_of_mem d hx)
        rw [List.map_cons, List.flatten_cons, List.append_assoc, ih d hd,
          ihds hds', List.map_cons, List.foldr_cons]
        omega
    rw [serialize_tree_eq]
    simp only [List.cons_append, List.append_assoc, List.singleton_append, List.nil_append]
    simp only [max_open_from]
    rw [ML cs hmem (cur + 1) (.Return r :: rest)]
    simp only [max_open_from]
    have hfd : frame_depth (to_frame (CallTree.node p cs r)) =
        1 + (cs.map (fun d => frame_depth (to_frame d))).foldr max 0 := by
      rw [to_frame_eq, frame_depth_eq]
      simp only [List.map_map]
      rfl
    rw [hfd]
    have hsub : cur + 1 - 1 = cur := by omega
    rw [hsub]
    omega

theorem max_open_depth_serialize (tr : CallTree) :
    max_open_depth (serialize_tree tr) = frame_depth (to_frame tr) := by
  unfold max_open_depth
  have h := max_open_serialize tr 0 []
  rw [List.append_nil] at h
  rw [h]
  simp [max_open_from]

/-- Claim C1: for every well-formed Event sequence (it opens with a
Call and every opened frame is closed by its matching Return exactly at
the end of the sequence) whose Return outcomes respect the receipt
contract, reconstruction consumes the entire sequence — the first event
is passed separately, mirroring the caller — leaves no remaining events,
and produces one root frame whose total descendant count is the number
of Call events minus one and whose nesting depth is the maximum
concurrent open-call depth of the sequence. -/
theorem trace_reconstruction_complete (e : ExecutionEvent) (es : List ExecutionEvent)
    (hwf : well_formed_events (e :: es))
    (hgood : good_outcomes (e :: es) = true) :
    ∃ f, build_lotus_trace' e es = .ok (f, []) ∧
      descendant_count f = call_count (e :: es) - 1 ∧
      frame_depth f = max_open_depth (e :: es) := by
  cases e with
  | Return r => exact absurd hwf (by simp [well_formed_events])
  | Call p =>
    have hrac : remainder_after_close 1 es = some [] := hwf
    obtain ⟨cs, r, hes⟩ := rac_decomposition es.length es le_rfl [] hrac
    subst hes
    have hser : ExecutionEvent.Call p ::
        ((cs.map serialize_tree).flatten ++ ExecutionEvent.Return r :: []) =
        serialize_tree (CallTree.node p cs r) := by
      rw [serialize_tree_eq]
    simp only [good_outcomes, List.all_cons, List.all_append, Bool.and_eq_true] at hgood
    have hflat : good_outcomes ((cs.map serialize_tree).flatten) = true := hgood.2.1
    have hbad : bad_return r = false := by
      have h3 := hgood.2.2
      simp only [List.all_cons, List.all_nil, Bool.and_true, event_ok] at h3
      simpa using h3
    have hloop := lotus_loop'_serialized
      (((cs.map serialize_tree).flatten ++ ExecutionEvent.Return r :: []).length)
      cs r [] (start_trace p) le_rfl hflat hbad
    refine ⟨to_frame (CallTree.node p cs r), ?_, ?_, ?_⟩
    · rw [build_lotus_trace'_call, hloop, to_frame_eq]
      simp [start_trace]
    · rw [hser, ← call_count_serialize (CallTree.node p cs r)]
      omega
    · rw [hser, max_open_depth_serialize]

theorem trace_reconstruction_complete_witness :
    well_formed_events
      [.Call sample_send_params, .Call sample_send_params,
       .Return (.ok (.Return [])), .Return (.error ⟨"m", .NotFound⟩)] ∧
    ∃ f, build_lotus_trace' (.Call sample_send_params)
        [.Call sample_send_params, .Return (.ok (.Return [])),
         .Return (.error ⟨"m", .NotFound⟩)] = .ok (f, []) ∧
      descendant_count f =
        call_count
          [.Call sample_send_params, .Call sample_send_params,
           .Return (.ok (.Return [])), .Return (.error ⟨"m", .NotFound⟩)] - 1 ∧
      frame_depth f =
        max_open_depth
          [.Call sample_send_params, .Call sample_send_params,
           .Return (.ok (.Return [])), .Return (.error ⟨"m", .NotFound⟩)] :=
  ⟨rfl, trace_reconstruction_complete _ _ rfl rfl⟩

/-- Big-endian byte expansion of `n` on exactly `width` bytes. -/
def be_bytes : Nat → Nat → List Nat
  | 0, _ => []
  | width + 1, n => be_bytes width (n / 256) ++ [n % 256]

/-- Big-endian byte-list value. -/
def from_be (bs : List Nat) : Nat := bs.foldl (fun a b => a * 256 + b) 0

theorem length_be_bytes : ∀ (width n : Nat), (be_bytes width n).length = width := by
  intro width
  induction width with
  | zero => intro n; rfl
  | succ w ih =>
    intro n
    simp [be_bytes, ih]

theorem from_be_append_one (l : List Nat) (b : Nat) :
    from_be (l ++ [b]) = from_be l * 256 + b := by
  simp [from_be, List.foldl_append]

theorem from_be_be_bytes : ∀ (width n : Nat), n < 256 ^ width →
    from_be (be_bytes width n) = n := by
  intro width
  induction width with
  | zero =>
    intro n h
    simp only [pow_zero] at h
    interval_cases n
    rfl
  | succ w ih =>
    intro n h
    have hdiv : n / 256 < 256 ^ w := by
      have : (256 : Nat) ^ (w + 1) = 256 ^ w * 256 := pow_succ 256 w
      omega
    simp only [be_bytes, from_be_append_one, ih (n / 256) hdiv]
    omega

/-- Modelled from the spec: the CBOR-style header of the tuple encoding
(`fvm_ipld_encoding`, an external dependency): major type in the upper
three bits, minimal-width argument. -/
def encode_head (major arg : Nat) : List Nat :=
  if arg < 24 then [major * 32 + arg]
  else if arg < 2 ^ 8 then [major * 32 + 24, arg]
  else if arg < 2 ^ 16 then (major * 32 + 25) :: be_bytes 2 arg
  else if arg < 2 ^ 32 then (major * 32 + 26) :: be_bytes 4 arg
  else (major * 32 + 27) :: be_bytes 8 arg

/-- Modelled from the spec: header decoding, returning major type,
argument and remaining bytes. -/
def decode_head (bs : List Nat) : Option (Nat × Nat × List Nat) :=
  match bs with
  | [] => none
  | b :: rest =>
      let major := b / 32
      let info := b % 32
      if info < 24 then some (major, info, rest)
      else if info = 24 then
        match rest with
        | a :: r => some (major, a, r)
        | [] => none
      else if info = 25 then
        if 2 ≤ rest.length then some (major, from_be (rest.take 2), rest.drop 2) else none
      else if info = 26 then
        if 4 ≤ rest.length then some (major, from_be (rest.take 4), rest.drop 4) else none
      else if info = 27 then
        if 8 ≤ rest.length then some (major, from_be (rest.take 8), rest.drop 8) else none
      else none

theorem decode_head_encode_head (major arg : Nat) (ha : arg < 2 ^ 64)
    (r : List Nat) : decode_head (encode_head major arg ++ r) = some (major, arg, r) := by
  unfold encode_head
  by_cases h1 : arg < 24
  · rw [if_pos h1]
    simp only [List.cons_append, List.nil_append, decode_head]
    rw [if_pos (by omega : (major * 32 + arg) % 32 < 24)]
    simp only [Option.some.injEq, Prod.mk.injEq, and_true, true_and]
    omega
  · rw [if_neg h1]
    by_cases h2 : arg < 2 ^ 8
    · rw [if_pos h2]
      simp only [List.cons_append, List.nil_append, decode_head]
      rw [if_neg (by omega : ¬ (major * 32 + 24) % 32 < 24),
        if_pos (by omega : (major * 32 + 24) % 32 = 24)]
      simp only [Option.some.injEq, Prod.mk.injEq, and_true, true_and]
      omega
    · rw [if_neg h2]
      by_cases h3 : arg < 2 ^ 16
      · rw [if_pos h3]
        simp only [List.cons_append, decode_head]
        rw [if_neg (by omega : ¬ (major * 32 + 25) % 32 < 24),
          if_neg (by omega : ¬ (major * 32 + 25) % 32 = 24),
          if_pos (by omega : (major * 32 + 25) % 32 = 25),
          if_pos (by rw [List.length_append, length_be_bytes]; omega)]
        rw [List.take_left' (length_be_bytes 2 arg), List.drop_left' (length_be_bytes 2 arg),
          from_be_be_bytes 2 arg (by norm_num at h3 ⊢; omega)]
        simp only [Option.some.injEq, Prod.mk.injEq, and_true, true_and]
        omega
      · rw [if_neg h3]
        by_cases h4 : arg < 2 ^ 32
        · rw [if_pos h4]
          simp only [List.cons_append, decode_head]
          rw [if_neg (by omega : ¬ (major * 32 + 26) % 32 < 24),
            if_neg (by omega : ¬ (major * 32 + 26) % 32 = 24),
            if_neg (by omega : ¬ (major * 32 + 26) % 32 = 25),
            if_pos (by omega : (major * 32 + 26) % 32 = 26),
            if_pos (by rw [List.length_append, length_be_bytes]; omega)]
          rw [List.take_left' (length_be_bytes 4 arg), List.drop_left' (length_be_bytes 4 arg),
            from_be_be_bytes 4 arg (by norm_num at h4 ⊢; omega)]
          simp only [Option.some.injEq, Prod.mk.injEq, and_true, true_and]
          omega
        · rw [if_neg h4]
          simp only [List.cons_append, decode_head]
          rw [if_neg (by omega : ¬ (major * 32 + 27) % 32 < 24),
            if_neg (by omega : ¬ (major * 32 + 27) % 32 = 24),
            if_neg (by omega : ¬ (major * 32 + 27) % 32 = 25),
            if_neg (by omega : ¬ (major * 32 + 27) % 32 = 26),
            if_pos (by omega : (major * 32 + 27) % 32 = 27),
            if_pos (by rw [List.length_append, length_be_bytes]; omega)]
          rw [List.take_left' (length_be_bytes 8 arg), List.drop_left' (length_be_bytes 8 arg),
            from_be_be_bytes 8 arg (by norm_num at ha ⊢; omega)]
          simp only [Option.some.injEq, Prod.mk.injEq, and_true, true_and]
          omega

/-- Modelled from the spec: unsigned-integer item of the tuple
encoding. -/
def cbor_uint (n : Nat) : List Nat := encode_head 0 n

def decode_uint (bs : List Nat) : Option (Nat × List Nat) :=
  match decode_head bs with
  | some (major, n, r) => if major = 0 then some (n, r) else none
  | none => none

theorem decode_uint_encode (n : Nat) (h : n < 2 ^ 64) (r : List Nat) :
    decode_uint (cbor_uint n ++ r) = some (n, r) := by
  unfold decode_uint cbor_uint
  rw [decode_head_encode_head 0 n h r]
  rfl

/-- Modelled from the spec: byte-string item of the tuple encoding. -/
def cbor_bytes (payload : List Nat) : List Nat := encode_head 2 payload.length ++ payload

def decode_bytes (bs : List Nat) : Option (List Nat × List Nat) :=
  match decode_head bs with
  | some (major, n, r) =>
      if major = 2 ∧ n ≤ r.length then some (r.take n, r.drop n) else none
  | none => none

theorem decode_bytes_encode (payload : List Nat) (h : payload.length < 2 ^ 64)
    (r : List Nat) : decode_bytes (cbor_bytes payload ++ r) = some (payload, r) := by
  unfold decode_bytes cbor_bytes
  rw [List.append_assoc, decode_head_encode_head 2 payload.length h (payload ++ r)]
  show (if 2 = 2 ∧ payload.length ≤ (payload ++ r).length then
      some ((payload ++ r).take payload.length, (payload ++ r).drop payload.length)
    else none) = some (payload, r)
  rw [if_pos ⟨rfl, by rw [List.length_append]; omega⟩,
    List.take_left' rfl, List.drop_left' rfl]

/-- Modelled from the spec: text item of the tuple encoding; the length
header counts characters, each encoded on four big-endian bytes. -/
def cbor_text (s : String) : List Nat :=
  encode_head 3 s.toList.length ++ (s.toList.map (fun c => be_bytes 4 c.toNat)).flatten

def decode_chars : Nat → List Nat → Option (List Char × List Nat)
  | 0, r => some ([], r)
  | k + 1, r =>
      if 4 ≤ r.length then
        match decode_chars k (r.drop 4) with
        | some (cs, r2) => some (Char.ofNat (from_be (r.take 4)) :: cs, r2)
        | none => none
      else none

def decode_text (bs : List Nat) : Option (String × List Nat) :=
  match decode_head bs with
  | some (major, n, r) =>
      if major = 3 then
        match decode_chars n r with
        | some (cs, r2) => some (String.mk cs, r2)
        | none => none
      else none
  | none => none

theorem decode_chars_encode :
    ∀ (cs : List Char) (r : List Nat),
      decode_chars cs.length ((cs.map (fun c => be_bytes 4 c.toNat)).flatten ++ r) =
        some (cs, r) := by
  intro cs
  induction cs with
  | nil => intro r; rfl
  | cons c cs' ih =>
    intro r
    simp only [List.map_cons, List.flatten_cons, List.length_cons, List.append_assoc]
    have hclt : c.toNat < 256 ^ 4 := by
      have := c.val.toNat_lt
      have h2 : c.toNat < 2 ^ 32 := by simpa [Char.toNat] using this
      norm_num at h2 ⊢
      omega
    simp only [decode_chars]
    rw [if_pos (by rw [List.length_append, length_be_bytes]; omega),
      List.drop_left' (length_be_bytes 4 c.toNat), ih r,
      List.take_left' (length_be_bytes 4 c.toNat),
      from_be_be_bytes 4 c.toNat hclt, Char.ofNat_toNat]

theorem decode_text_encode (s : String) (h : s.toList.length < 2 ^ 64) (r : List Nat) :
    decode_text (cbor_text s ++ r) = some (s, r) := by
  unfold decode_text cbor_text
  rw [List.append_assoc, decode_head_encode_head 3 s.toList.length h _]
  show (if 3 = 3 then
      match decode_chars s.toList.length
          ((s.toList.map (fun c => be_bytes 4 c.toNat)).flatten ++ r) with
      | some (cs, r2) => some (String.mk cs, r2)
      | none => none
    else none) = some (s, r)
  rw [if_pos rfl, decode_chars_encode s.toList r]
  rfl

/-- Number of base-256 digits of `n` (at least one). -/
def byte_len (n : Nat) : Nat :=
  if n < 256 then 1 else 1 + byte_len (n / 256)
decreasing_by
  have : n / 256 < n := Nat.div_lt_self (by omega) (by omega)
  omega

theorem byte_len_bound : ∀ (n : Nat), n < 256 ^ byte_len n := by
  intro n
  induction n using Nat.strong_induction_on with
  | _ n ih =>
    rw [byte_len]
    by_cases h : n < 256
    · rw [if_pos h]
      simpa using h
    · rw [if_neg h]
      have hlt : n / 256 < n := Nat.div_lt_self (by omega) (by omega)
      have := ih (n / 256) hlt
      have hp : (256 : Nat) ^ (1 + byte_len (n / 256)) = 256 * 256 ^ byte_len (n / 256) := by
        rw [pow_add, pow_one]
      omega

/-- Big-endian magnitude of `n` on its minimal number of bytes. -/
def nat_be (n : Nat) : List Nat := be_bytes (byte_len n) n

/-- Modelled from the spec: the byte payload of a big-integer token
amount — empty for zero, else a sign byte 0 followed by the big-endian
magnitude. -/
def token_bytes (v : Nat) : List Nat := if v = 0 then [] else 0 :: nat_be v

def token_value (payload : List Nat) : Option Nat :=
  match payload with
  | [] => some 0
  | tag :: rest => if tag = 0 then some (from_be rest) else none

theorem token_value_token_bytes (v : Nat) : token_value (token_bytes v) = some v := by
  unfold token_bytes
  by_cases h : v = 0
  · rw [if_pos h, h]
    rfl
  · rw [if_neg h]
    show (if 0 = 0 then some (from_be (nat_be v)) else none) = some v
    rw [if_pos rfl]
    unfold nat_be
    rw [from_be_be_bytes (byte_len v) v (byte_len_bound v)]

/-- Modelled from the spec: a token amount crosses as a CBOR byte
string holding its big-integer payload. -/
def cbor_token (v : Nat) : List Nat := cbor_bytes (token_bytes v)

def decode_token (bs : List Nat) : Option (Nat × List Nat) :=
  match decode_bytes bs with
  | some (payload, r) =>
      match token_value payload with
      | some v => some (v, r)
      | none => none
  | none => none

theorem decode_token_encode (v : Nat) (h : (token_bytes v).length < 2 ^ 64) (r : List Nat) :
    decode_token (cbor_token v ++ r) = some (v, r) := by
  unfold decode_token cbor_token
  rw [decode_bytes_encode (token_bytes v) h r]
  show (match token_value (token_bytes v) with
    | some v => some (v, r)
    | none => none) = some (v, r)
  rw [token_value_token_bytes v]

/-- Modelled from the spec: the byte payload of an address — a class
tag followed by the class payload, ID addresses carrying their
big-endian actor ID. -/
def addr_bytes : Address → List Nat
  | .new_id i => 0 :: nat_be i
  | .raw payload => 1 :: payload

def addr_value (payload : List Nat) : Option Address :=
  match payload with
  | [] => none
  | tag :: rest =>
      if tag = 0 then some (.new_id (from_be rest))
      else if tag = 1 then some (.raw rest)
      else none

theorem addr_value_addr_bytes (a : Address) : addr_value (addr_bytes a) = some a := by
  cases a with
  | new_id i =>
    show (if 0 = 0 then some (Address.new_id (from_be (nat_be i)))
      else if 0 = 1 then some (Address.raw (nat_be i)) else none) = some (Address.new_id i)
    rw [if_pos rfl]
    unfold nat_be
    rw [from_be_be_bytes (byte_len i) i (byte_len_bound i)]
  | raw payload =>
    show (if 1 = 0 then some (Address.new_id (from_be payload))
      else if 1 = 1 then some (Address.raw payload) else none) = some (Address.raw payload)
    rw [if_neg (by omega), if_pos rfl]

/-- Modelled from the spec: an address crosses as a CBOR byte string
holding its payload. -/
def cbor_addr (a : Address) : List Nat := cbor_bytes (addr_bytes a)

def decode_addr (bs : List Nat) : Option (Address × List Nat) :=
  match decode_bytes bs with
  | some (payload, r) =>
      match addr_value payload with
      | some a => some (a, r)
      | none => none
  | none => none

theorem decode_addr_encode (a : Address) (h : (addr_bytes a).length < 2 ^ 64)
    (r : List Nat) : decode_addr (cbor_addr a ++ r) = some (a, r) := by
  unfold decode_addr cbor_addr
  rw [decode_bytes_encode (addr_bytes a) h r]
  show (match addr_value (addr_bytes a) with
    | some a => some (a, r)
    | none => none) = some (a, r)
  rw [addr_value_addr_bytes a]

/-- Modelled from the spec: tuple encoding of a `Message` — a
10-element array holding the fields in declaration order. -/
def cbor_message (m : Message) : List Nat :=
  encode_head 4 10 ++ cbor_uint m.version ++ cbor_addr m.from_ ++ cbor_addr m.to_ ++
  cbor_uint m.sequence ++ cbor_token m.value ++ cbor_uint m.method_num ++
  cbor_bytes m.params ++ cbor_uint m.gas_limit ++ cbor_token m.gas_fee_cap ++
  cbor_token m.gas_premium

def decode_message (bs : List Nat) : Option (Message × List Nat) :=
  (decode_head bs).bind fun x =>
    if x.1 = 4 ∧ x.2.1 = 10 then
      (decode_uint x.2.2).bind fun v =>
      (decode_addr v.2).bind fun f =>
      (decode_addr f.2).bind fun t =>
      (decode_uint t.2).bind fun sq =>
      (decode_token sq.2).bind fun val =>
      (decode_uint val.2).bind fun mn =>
      (decode_bytes mn.2).bind fun ps =>
      (decode_uint ps.2).bind fun gl =>
      (decode_token gl.2).bind fun gfc =>
      (decode_token gfc.2).map fun gp =>
        ({ version := v.1, from_ := f.1, to_ := t.1, sequence := sq.1, value := val.1,
           method_num := mn.1, params := ps.1, gas_limit := gl.1, gas_fee_cap := gfc.1,
           gas_premium := gp.1 }, gp.2)
    else none

/-- The numeric bounds a `Message` must satisfy for its encoding to be
within the 64-bit header arguments. -/
def wf_message (m : Message) : Bool :=
  decide (m.version < 2 ^ 64) && decide (m.sequence < 2 ^ 64) &&
  decide (m.method_num < 2 ^ 64) && decide (m.gas_limit < 2 ^ 64) &&
  decide (m.params.length < 2 ^ 64) &&
  decide ((addr_bytes m.from_).length < 2 ^ 64) &&
  decide ((addr_bytes m.to_).length < 2 ^ 64) &&
  decide ((token_bytes m.value).length < 2 ^ 64) &&
  decide ((token_bytes m.gas_fee_cap).length < 2 ^ 64) &&
  decide ((token_bytes m.gas_premium).length < 2 ^ 64)

theorem decode_message_encode (m : Message) (hm : wf_message m = true) (r : List Nat) :
    decode_message (cbor_message m ++ r) = some (m, r) := by
  unfold wf_message at hm
  simp only [Bool.and_eq_true, decide_eq_true_eq] at hm
  obtain ⟨⟨⟨⟨⟨⟨⟨⟨⟨h1, h2⟩, h3⟩, h4⟩, h5⟩, h6⟩, h7⟩, h8⟩, h9⟩, h10⟩ := hm
  unfold decode_message cbor_message
  simp only [List.append_assoc]
  rw [decode_head_encode_head 4 10 (by norm_num) _]
  simp only [Option.some_bind]
  rw [if_pos (⟨trivial, trivial⟩ : True ∧ True)]
  rw [decode_uint_encode m.version h1 _]
  simp only [Option.some_bind]
  rw [decode_addr_encode m.from_ h6 _]
  simp only [Option.some_bind]
  rw [decode_addr_encode m.to_ h7 _]
  simp only [Option.some_bind]
  rw [decode_uint_encode m.sequence h2 _]
  simp only [Option.some_bind]
  rw [decode_token_encode m.value h8 _]
  simp only [Option.some_bind]
  rw [decode_uint_encode m.method_num h3 _]
  simp only [Option.some_bind]
  rw [decode_bytes_encode m.params h5 _]
  simp only [Option.some_bind]
  rw [decode_uint_encode m.gas_limit h4 _]
  simp only [Option.some_bind]
  rw [decode_token_encode m.gas_fee_cap h9 _]
  simp only [Option.some_bind]
  rw [decode_token_encode m.gas_premium h10 r]
  simp only [Option.map_some']

/-- Modelled from the spec: tuple encoding of a `Receipt` — a 3-element
array holding exit code, return data and gas used. -/
def cbor_receipt (rc : Receipt) : List Nat :=
  encode_head 4 3 ++ cbor_uint rc.exit_code.value ++ cbor_bytes rc.return_data ++
  cbor_uint rc.gas_used

def decode_receipt (bs : List Nat) : Option (Receipt × List Nat) :=
  (decode_head bs).bind fun x =>
    if x.1 = 4 ∧ x.2.1 = 3 then
      (decode_uint x.2.2).bind fun ec =>
      (decode_bytes ec.2).bind fun rd =>
      (decode_uint rd.2).map fun gu =>
        ({ exit_code := ⟨ec.1⟩, return_data := rd.1, gas_used := gu.1 }, gu.2)
    else none

/-- The numeric bounds a `Receipt` must satisfy for its encoding. -/
def wf_receipt (rc : Receipt) : Bool :=
  decide (rc.exit_code.value < 2 ^ 64) && decide (rc.return_data.length < 2 ^ 64) &&
  decide (rc.gas_used < 2 ^ 64)

theorem decode_receipt_encode (rc : Receipt) (hr : wf_receipt rc = true) (r : List Nat) :
    decode_receipt (cbor_receipt rc ++ r) = some (rc, r) := by
  unfold wf_receipt at hr
  simp only [Bool.and_eq_true, decide_eq_true_eq] at hr
  obtain ⟨⟨h1, h2⟩, h3⟩ := hr
  unfold decode_receipt cbor_receipt
  simp only [List.append_assoc]
  rw [decode_head_encode_head 4 3 (by norm_num) _]
  simp only [Option.some_bind]
  rw [if_pos (⟨trivial, trivial⟩ : True ∧ True)]
  rw [decode_uint_encode rc.exit_code.value h1 _]
  simp only [Option.some_bind]
  rw [decode_bytes_encode rc.return_data h2 _]
  simp only [Option.some_bind]
  rw [decode_uint_encode rc.gas_used h3 r]
  simp only [Option.map_some']

/-- The numeric bounds a whole `LotusTrace` must satisfy for its
encoding (recursively over the subcalls). -/
def wf_trace : LotusTrace → Bool
  | ⟨msg, rcpt, err, subcalls⟩ =>
      wf_message msg && wf_receipt rcpt && decide (err.toList.length < 2 ^ 64) &&
      decide (subcalls.length < 2 ^ 64) &&
      (subcalls.attach.map (fun c => wf_trace c.val)).all id
decreasing_by
  simp only [LotusTrace.mk.sizeOf_spec]
  have := List.sizeOf_lt_of_mem c.property
  omega

theorem wf_trace_eq (msg : Message) (rcpt : Receipt) (err : String)
    (subcalls : List LotusTrace) :
    wf_trace ⟨msg, rcpt, err, subcalls⟩ =
      (wf_message msg && wf_receipt rcpt && decide (err.toList.length < 2 ^ 64) &&
       decide (subcalls.length < 2 ^ 64) && (subcalls.map wf_trace).all id) := by
  rw [wf_trace, List.attach_map_val subcalls wf_trace]

/-- `to_vec` on a `LotusTrace` (machine.rs:283): the tuple serialization
of the trace tree, modelled from the spec as a CBOR-style 4-tuple in
field order — message, receipt, error text, children. -/
def lotus_trace_to_vec : LotusTrace → List Nat
  | ⟨msg, rcpt, err, subcalls⟩ =>
      encode_head 4 4 ++ cbor_message msg ++ cbor_receipt rcpt ++ cbor_text err ++
      encode_head 4 subcalls.length ++
      (subcalls.attach.map (fun c => lotus_trace_to_vec c.val)).flatten
decreasing_by
  simp only [LotusTrace.mk.sizeOf_spec]
  have := List.sizeOf_lt_of_mem c.property
  omega

theorem lotus_trace_to_vec_eq (msg : Message) (rcpt : Receipt) (err : String)
    (subcalls : List LotusTrace) :
    lotus_trace_to_vec ⟨msg, rcpt, err, subcalls⟩ =
      encode_head 4 4 ++ cbor_message msg ++ cbor_receipt rcpt ++ cbor_text err ++
      encode_head 4 subcalls.length ++ (subcalls.map lotus_trace_to_vec).flatten := by
  rw [lotus_trace_to_vec, List.attach_map_val subcalls lotus_trace_to_vec]

mutual

/-- Modelled from the spec: fuelled decoder for the trace tuple
encoding. -/
def decode_trace : Nat → List Nat → Option (LotusTrace × List Nat)
  | 0, _ => none
  | fuel + 1, bs =>
      (decode_head bs).bind fun x =>
        if x.1 = 4 ∧ x.2.1 = 4 then
          (decode_message x.2.2).bind fun msg =>
          (decode_receipt msg.2).bind fun rcpt =>
          (decode_text rcpt.2).bind fun err =>
          (decode_head err.2).bind fun y =>
            if y.1 = 4 then
              (decode_trace_list fuel y.2.1 y.2.2).map fun subs =>
                (⟨msg.1, rcpt.1, err.1, subs.1⟩, subs.2)
            else none
        else none

/-- Modelled from the spec: fuelled decoder for a fixed number of
consecutive trace items. -/
def decode_trace_list : Nat → Nat → List Nat → Option (List LotusTrace × List Nat)
  | 0, _, _ => none
  | _ + 1, 0, bs => some ([], bs)
  | fuel + 1, k + 1, bs =>
      (decode_trace fuel bs).bind fun t =>
        (decode_trace_list fuel k t.2).map fun ts => (t.1 :: ts.1, ts.2)

end

theorem decode_trace_encode_aux :
    ∀ (n : Nat),
      (∀ (t : LotusTrace), sizeOf t ≤ n → ∀ (fuel : Nat) (r : List Nat),
        2 * (1 + descendant_count t) ≤ fuel → wf_trace t = true →
        decode_trace fuel (lotus_trace_to_vec t ++ r) = some (t, r)) ∧
      (∀ (ts : List LotusTrace), sizeOf ts ≤ n → ∀ (fuel : Nat) (r : List Nat),
        1 + 2 * (ts.map (fun c => 1 + descendant_count c)).sum ≤ fuel →
        (ts.map wf_trace).all id = true →
        decode_trace_list fuel ts.length ((ts.map lotus_trace_to_vec).flatten ++ r) =
          some (ts, r)) := by
  intro n
  induction n with
  | zero =>
    constructor
    · intro t h
      obtain ⟨msg, rcpt, err, subs⟩ := t
      exfalso
      simp only [LotusTrace.mk.sizeOf_spec] at h
      omega
    · intro ts h
      cases ts with
      | nil =>
        exfalso
        simp only [List.nil.sizeOf_spec] at h
        omega
      | cons t ts' =>
        exfalso
        simp only [List.cons.sizeOf_spec] at h
        omega
  | succ n ihn =>
    obtain ⟨iht, ihl⟩ := ihn
    constructor
    · intro t hsz fuel r hfuel hwf
      obtain ⟨msg, rcpt, err, subs⟩ := t
      obtain ⟨f, rfl⟩ : ∃ f, fuel = f + 1 := ⟨fuel - 1, by omega⟩
      rw [wf_trace_eq] at hwf
      simp only [Bool.and_eq_true, decide_eq_true_eq] at hwf
      obtain ⟨⟨⟨⟨hmsg, hrcpt⟩, herr⟩, hlen⟩, hsubs⟩ := hwf
      rw [lotus_trace_to_vec_eq]
      simp only [List.append_assoc]
      rw [decode_trace]
      rw [decode_head_encode_head 4 4 (by norm_num) _]
      simp only [Option.some_bind]
      rw [if_pos (⟨trivial, trivial⟩ : True ∧ True)]
      rw [decode_message_encode msg hmsg _]
      simp only [Option.some_bind]
      rw [decode_receipt_encode rcpt hrcpt _]
      simp only [Option.some_bind]
      rw [decode_text_encode err herr _]
      simp only [Option.some_bind]
      rw [decode_head_encode_head 4 subs.length hlen _]
      simp only [Option.some_bind]
      rw [if_pos (trivial : True)]
      have hsize : sizeOf subs ≤ n := by
        simp only [LotusTrace.mk.sizeOf_spec] at hsz
        omega
      have hdc : descendant_count ⟨msg, rcpt, err, subs⟩ =
          (subs.map (fun c => 1 + descendant_count c)).sum := descendant_count_eq _
      have hfl : 1 + 2 * (subs.map (fun c => 1 + descendant_count c)).sum ≤ f := by
        omega
      rw [ihl subs hsize f r hfl hsubs]
      simp only [Option.map_some']
    · intro ts hsz fuel r hfuel hall
      cases ts with
      | nil =>
        obtain ⟨f, rfl⟩ : ∃ f, fuel = f + 1 := ⟨fuel - 1, by omega⟩
        simp [decode_trace_list]
      | cons t ts' =>
        obtain ⟨f, rfl⟩ : ∃ f, fuel = f + 1 := ⟨fuel - 1, by omega⟩
        simp only [List.map_cons, List.all_cons, Bool.and_eq_true, id_eq] at hall
        obtain ⟨hwt, hwts⟩ := hall
        simp only [List.map_cons, List.flatten_cons, List.length_cons, List.append_assoc]
        rw [decode_trace_list]
        have hst : sizeOf t ≤ n := by
          simp only [List.cons.sizeOf_spec] at hsz
          omega
        have hsts : sizeOf ts' ≤ n := by
          simp only [List.cons.sizeOf_spec] at hsz
          omega
        have hft : 2 * (1 + descendant_count t) ≤ f := by
          simp only [List.map_cons, List.sum_cons] at hfuel
          omega
        have hfts : 1 + 2 * (ts'.map (fun c => 1 + descendant_count c)).sum ≤ f := by
          simp only [List.map_cons, List.sum_cons] at hfuel
          omega
        rw [iht t hst f _ hft hwt]
        simp only [Option.some_bind]
        rw [ihl ts' hsts f r hfts hwts]
        simp only [Option.map_some']

theorem length_encode_head_pos (major arg : Nat) : 1 ≤ (encode_head major arg).length := by
  unfold encode_head
  split_ifs <;> simp [length_be_bytes]

theorem le_length_to_vec :
    ∀ (t : LotusTrace), 2 * (1 + descendant_count t) ≤ (lotus_trace_to_vec t).length := by
  suffices H : ∀ (n : Nat) (t : LotusTrace), sizeOf t ≤ n →
      2 * (1 + descendant_count t) ≤ (lotus_trace_to_vec t).length from
    fun t => H (sizeOf t) t le_rfl
  intro n
  induction n with
  | zero =>
    intro t h
    obtain ⟨msg, rcpt, err, subs⟩ := t
    exfalso
    simp only [LotusTrace.mk.sizeOf_spec] at h
    omega
  | succ n ih =>
    intro t hsz
    obtain ⟨msg, rcpt, err, subs⟩ := t
    have hmem : ∀ c ∈ subs, sizeOf c ≤ n := by
      intro c hc
      have := List.sizeOf_lt_of_mem hc
      simp only [LotusTrace.mk.sizeOf_spec] at hsz
      omega
    rw [lotus_trace_to_vec_eq, descendant_count_eq]
    simp only [List.length_append, List.length_flatten, List.map_map, Function.comp_def]
    have h1 : 1 ≤ (encode_head 4 4).length := length_encode_head_pos 4 4
    have h2 : 1 ≤ (encode_head 4 subs.length).length := length_encode_head_pos 4 subs.length
    have h3 : (subs.map (fun c => 2 * (1 + descendant_count c))).sum ≤
        (subs.map (fun c => (lotus_trace_to_vec c).length)).sum :=
      List.sum_le_sum (fun c hc => ih c (hmem c hc))
    have h4 : (subs.map (fun c => 2 * (1 + descendant_count c))).sum =
        2 * (subs.map (fun c => 1 + descendant_count c)).sum := by
      rw [← List.sum_map_mul_left]
    omega

/-- Modelled from the spec: decoding of a full trace payload — the
fuel is one more than the byte length, which the length bound above
shows is always sufficient for a payload this module produced. -/
def lotus_trace_from_vec (bs : List Nat) : Option LotusTrace :=
  match decode_trace (bs.length + 1) bs with
  | some (t, rest) => if rest = [] then some t else none
  | none => none

/-- Claim C9: encoding a CallFrame tree through the tuple-style binary
schema (field order: message, receipt, error text, children) and then
decoding it reproduces the original tree, for every tree whose numeric
fields fit the 64-bit header arguments of the encoding. -/
theorem lotus_trace_round_trip (t : LotusTrace) (h : wf_trace t = true) :
    lotus_trace_from_vec (lotus_trace_to_vec t) = some t := by
  unfold lotus_trace_from_vec
  have hfuel : 2 * (1 + descendant_count t) ≤ (lotus_trace_to_vec t).length + 1 :=
    le_trans (le_length_to_vec t) (by omega)
  have hdec := (decode_trace_encode_aux (sizeOf t)).1 t le_rfl
    ((lotus_trace_to_vec t).length + 1) [] hfuel h
  rw [List.append_nil] at hdec
  rw [hdec]
  rfl

/-- A concrete minimal trace frame used to instantiate the round-trip
theorem. -/
def sample_trace : LotusTrace :=
  { msg := { version := 0, from_ := .raw [], to_ := .raw [], sequence := 0, value := 0,
             method_num := 0, params := [], gas_limit := 0, gas_fee_cap := 0,
             gas_premium := 0 }
    msg_receipt := { exit_code := ⟨0⟩, return_data := [], gas_used := 0 }
    error := ""
    subcalls := [] }

theorem lotus_trace_round_trip_witness :
    lotus_trace_from_vec (lotus_trace_to_vec sample_trace) = some sample_trace :=
  lotus_trace_round_trip sample_trace (by
    rw [sample_trace, wf_trace_eq]
    simp [wf_message, wf_receipt, addr_bytes, token_bytes])
